import Mathlib

/-!
Shallow embedding of the `single_qubit_fusion` circuit-rewriting pass from
`pennylane/transforms/optimization/single_qubit_fusion.py`, together with the
numeric helper `allclose` from `pennylane/math/utils.py`.

The helper module `optimization_utils.py` (providing `find_next_gate` and
`fuse_rot_angles`) is not part of the sources; following the specification,
`find_next_gate` is modelled from its description ("search forward in the
remaining list for the next operation whose wire-set intersects the current
operation's wire-set") and the Euler-angle composition `fuse_rot_angles` is
kept abstract: the pass below is parametrised by an arbitrary composition
function `fuse : Angles → Angles → Angles`.

Angles are modelled as rational triples (the pass itself performs no
arithmetic on them beyond passing them to `fuse_rot_angles` and comparing
them against the tolerance).
-/

namespace PennyLane

/-- A triple of Euler angles, as produced by `single_qubit_rot_angles`. -/
abbrev Angles : Type := ℚ × ℚ × ℚ

/-- A gate instance: a name, an ordered wire list, and the optional
`single_qubit_rot_angles` capability (`none` models the property raising
`NotImplementedError`/`AttributeError`). -/
structure Operation where
  name : String
  wires : List Nat
  rotAngles : Option Angles
deriving DecidableEq

instance : Inhabited Operation := ⟨⟨"", [], none⟩⟩

/-- Whether `g` acts on at least one of the given wires (non-empty wire-set
intersection). -/
def sharesWires (wires : List Nat) (g : Operation) : Bool :=
  g.wires.any (fun w => wires.contains w)

/-- Modelled from the spec: `find_next_gate` (from the missing
`optimization_utils.py`) searches forward in the remaining list for the next
operation whose wire-set intersects the given wire-set, returning its index,
or `none` when no such operation exists. -/
def find_next_gate (wires : List Nat) (ops : List Operation) : Option Nat :=
  match ops with
  | [] => none
  | g :: rest =>
    if sharesWires wires g then some 0
    else (find_next_gate wires rest).map (· + 1)

/-- Scalar near-equality, as in `np.allclose` (see `pennylane/math/utils.py`):
`|a - b| ≤ atol + rtol * |b|`. -/
def allcloseQ (a b atol rtol : ℚ) : Bool :=
  decide (|a - b| ≤ atol + rtol * |b|)

/-- Elementwise `allclose` on an angle triple. -/
def allclose (a b : Angles) (atol rtol : ℚ) : Bool :=
  allcloseQ a.1 b.1 atol rtol && allcloseQ a.2.1 b.2.1 atol rtol &&
    allcloseQ a.2.2 b.2.2 atol rtol

/-- The zero angle triple (`zeros(3)`). -/
def zeros3 : Angles := (0, 0, 0)

/-- Membership of a gate's name in the optional exclusion list
(`exclude_gates is not None and current_gate.name in exclude_gates`). -/
def isExcluded (exclude_gates : Option (List String)) (g : Operation) : Bool :=
  match exclude_gates with
  | none => false
  | some l => l.contains g.name

/-- The composite rotation gate `Rot(*angles, wires=wires)`.  Its own
`single_qubit_rot_angles` are its three parameters. -/
def Rot (angles : Angles) (wires : List Nat) : Operation :=
  { name := "Rot", wires := wires, rotAngles := some angles }

/-- The angles of a gate, defaulting to zero (used only where
`rotAngles.isSome` is known). -/
def angOf (g : Operation) : Angles :=
  g.rotAngles.getD zeros3

/-- The subsequence of operations acting on wire `w`. -/
def onWire (w : Nat) (ops : List Operation) : List Operation :=
  ops.filter (fun g => g.wires.contains w)

/-! ### Properties of `find_next_gate` -/

theorem find_next_gate_none_iff {W : List Nat} {ops : List Operation} :
    find_next_gate W ops = none ↔ ∀ g ∈ ops, sharesWires W g = false := by
  induction ops with
  | nil => simp [find_next_gate]
  | cons g rest ih =>
    simp only [find_next_gate]
    by_cases hg : sharesWires W g = true
    · rw [if_pos hg]
      constructor
      · intro h
        exact (Option.some_ne_none 0 h).elim
      · intro h
        exact absurd (h g (List.mem_cons_self g rest)) (by simp [hg])
    · rw [if_neg hg]
      cases hfind : find_next_gate W rest with
      | some j =>
        constructor
        · intro h
          simp at h
        · intro h
          have hnone : find_next_gate W rest = none :=
            ih.mpr (fun x hx => h x (List.mem_cons_of_mem _ hx))
          rw [hfind] at hnone
          exact (Option.some_ne_none _ hnone).elim
      | none =>
        constructor
        · intro _ x hx
          rcases List.mem_cons.mp hx with hx | hx
          · subst hx; exact Bool.eq_false_iff.mpr hg
          · exact (ih.mp hfind) x hx
        · intro _
          rfl

theorem find_next_gate_split {W : List Nat} {ops : List Operation} {i : Nat}
    (h : find_next_gate W ops = some i) :
    ∃ pre g post, ops = pre ++ g :: post ∧ pre.length = i ∧
      (∀ x ∈ pre, sharesWires W x = false) ∧ sharesWires W g = true ∧
      ops.getD i default = g ∧ ops.eraseIdx i = pre ++ post := by
  induction ops generalizing i with
  | nil => simp [find_next_gate] at h
  | cons g rest ih =>
    simp only [find_next_gate] at h
    by_cases hg : sharesWires W g = true
    · rw [if_pos hg] at h
      injection h with h
      subst h
      exact ⟨[], g, rest, by simp, rfl, by simp, hg, rfl, rfl⟩
    · rw [if_neg hg] at h
      cases hfind : find_next_gate W rest with
      | none =>
        rw [hfind] at h
        exact (Option.some_ne_none _ h.symm).elim
      | some j =>
        rw [hfind] at h
        have hji : j + 1 = i := by
          have h' : some (j + 1) = some i := h
          injection h'
        obtain ⟨pre, x, post, hsplit, hlen, hpre, hx, hget, herase⟩ := ih hfind
        subst hji
        refine ⟨g :: pre, x, post, by simp [hsplit], by simp [hlen], ?_, hx, ?_, ?_⟩
        · intro y hy
          rcases List.mem_cons.mp hy with hy | hy
          · subst hy; exact Bool.eq_false_iff.mpr hg
          · exact hpre y hy
        · simpa using hget
        · simpa using herase

theorem find_next_gate_lt_length {W : List Nat} {ops : List Operation} {i : Nat}
    (h : find_next_gate W ops = some i) : i < ops.length := by
  obtain ⟨pre, g, post, hsplit, hlen, -, -, -, -⟩ := find_next_gate_split h
  subst hsplit
  subst hlen
  simp only [List.length_append, List.length_cons]
  omega

theorem eraseIdx_length_of_find {W : List Nat} {rest : List Operation} {i : Nat}
    (h : find_next_gate W rest = some i) :
    (rest.eraseIdx i).length < rest.length := by
  obtain ⟨pre, g, post, hsplit, -, -, -, -, herase⟩ := find_next_gate_split h
  rw [herase, hsplit]
  simp only [List.length_append, List.length_cons]
  omega

/-- The inner `while next_gate_idx is not None` loop of `single_qubit_fusion`
(lines 105-129 of the source): repeatedly look up the next gate acting on the
current gate's wires; if its wires coincide exactly, it is not excluded, and
it exposes `single_qubit_rot_angles`, fold its angles into the cumulative
angles via `fuse_rot_angles` and delete it from the remaining list; otherwise
stop.  Returns the final cumulative angles and remaining list. -/
def fuseLoop (fuse : Angles → Angles → Angles) (exclude_gates : Option (List String))
    (wires : List Nat) (cumulative_angles : Angles) (rest : List Operation) :
    Angles × List Operation :=
  match h : find_next_gate wires rest with
  | none => (cumulative_angles, rest)
  | some idx =>
    let next_gate := rest.getD idx default
    if wires = next_gate.wires then
      if isExcluded exclude_gates next_gate then
        (cumulative_angles, rest)
      else
        match next_gate.rotAngles with
        | none => (cumulative_angles, rest)
        | some next_gate_angles =>
          fuseLoop fuse exclude_gates wires (fuse cumulative_angles next_gate_angles)
            (rest.eraseIdx idx)
    else
      (cumulative_angles, rest)
termination_by rest.length
decreasing_by exact eraseIdx_length_of_find h

/-- Folding a run of gates' angles into an initial angle triple with
`fuse_rot_angles`, in source order (`cumulative = fuse(cumulative, next)`). -/
def groupAngles (fuse : Angles → Angles → Angles) (a : Angles) (gs : List Operation) : Angles :=
  gs.foldl (fun c g => fuse c (angOf g)) a

theorem fuseLoop_of_find_none {fuse : Angles → Angles → Angles}
    {ex : Option (List String)} {wires : List Nat} {cum : Angles}
    {rest : List Operation} (h : find_next_gate wires rest = none) :
    fuseLoop fuse ex wires cum rest = (cum, rest) := by
  rw [fuseLoop, h]

theorem fuseLoop_of_wires_ne {fuse : Angles → Angles → Angles}
    {ex : Option (List String)} {wires : List Nat} {cum : Angles}
    {rest : List Operation} {idx : Nat} (h : find_next_gate wires rest = some idx)
    (hw : wires ≠ (rest.getD idx default).wires) :
    fuseLoop fuse ex wires cum rest = (cum, rest) := by
  rw [fuseLoop, h]
  simp only [if_neg hw]

theorem fuseLoop_of_excluded {fuse : Angles → Angles → Angles}
    {ex : Option (List String)} {wires : List Nat} {cum : Angles}
    {rest : List Operation} {idx : Nat} (h : find_next_gate wires rest = some idx)
    (hw : wires = (rest.getD idx default).wires)
    (hex : isExcluded ex (rest.getD idx default) = true) :
    fuseLoop fuse ex wires cum rest = (cum, rest) := by
  rw [fuseLoop, h]
  simp only [if_pos hw, hex]
  simp

theorem fuseLoop_of_no_angles {fuse : Angles → Angles → Angles}
    {ex : Option (List String)} {wires : List Nat} {cum : Angles}
    {rest : List Operation} {idx : Nat} (h : find_next_gate wires rest = some idx)
    (hw : wires = (rest.getD idx default).wires)
    (hex : isExcluded ex (rest.getD idx default) = false)
    (ha : (rest.getD idx default).rotAngles = none) :
    fuseLoop fuse ex wires cum rest = (cum, rest) := by
  rw [fuseLoop, h]
  simp only [if_pos hw, hex, ha]
  simp

theorem fuseLoop_merge {fuse : Angles → Angles → Angles}
    {ex : Option (List String)} {wires : List Nat} {cum : Angles}
    {rest : List Operation} {idx : Nat} {na : Angles}
    (h : find_next_gate wires rest = some idx)
    (hw : wires = (rest.getD idx default).wires)
    (hex : isExcluded ex (rest.getD idx default) = false)
    (ha : (rest.getD idx default).rotAngles = some na) :
    fuseLoop fuse ex wires cum rest =
      fuseLoop fuse ex wires (fuse cum na) (rest.eraseIdx idx) := by
  rw [fuseLoop, h]
  simp only [if_pos hw, hex, ha]
  simp

theorem not_onWire_of_not_shares {W : List Nat} {x : Operation} {w : Nat}
    (hx : sharesWires W x = false) (hw : W.contains w = true) :
    x.wires.contains w = false := by
  by_contra hcon
  have hmem : w ∈ x.wires := by
    simp only [Bool.not_eq_false] at hcon
    simpa using hcon
  have htrue : sharesWires W x = true := by
    simp only [sharesWires, List.any_eq_true]
    exact ⟨w, hmem, hw⟩
  simp [htrue] at hx

theorem onWire_append (w : Nat) (l1 l2 : List Operation) :
    onWire w (l1 ++ l2) = onWire w l1 ++ onWire w l2 := by
  simp [onWire, List.filter_append]

theorem onWire_cons_pos {w : Nat} {g : Operation} (l : List Operation)
    (h : g.wires.contains w = true) : onWire w (g :: l) = g :: onWire w l := by
  simp only [onWire, List.filter_cons, h]
  simp

theorem onWire_cons_neg {w : Nat} {g : Operation} (l : List Operation)
    (h : g.wires.contains w = false) : onWire w (g :: l) = onWire w l := by
  simp only [onWire, List.filter_cons, h]
  simp

theorem onWire_eq_nil {w : Nat} {l : List Operation}
    (h : ∀ x ∈ l, x.wires.contains w = false) : onWire w l = [] := by
  induction l with
  | nil => rfl
  | cons x xs ih =>
    rw [onWire_cons_neg xs (h x (List.mem_cons_self x xs))]
    exact ih (fun y hy => h y (List.mem_cons_of_mem _ hy))

/-- Full characterisation of the inner fusion loop: it removes from the
remaining list a run `gs` of gates — all on exactly the current wires, not
excluded, and angle-capable — folds their angles into the cumulative angles
in order, forms (for every current wire) a prefix of the remaining
operations acting on that wire, and leaves operations on other wires
untouched. -/
theorem fuseLoop_spec (fuse : Angles → Angles → Angles) (ex : Option (List String))
    (wires : List Nat) (cum : Angles) (rest : List Operation) :
    ∃ gs : List Operation,
      (∀ g ∈ gs, g.wires = wires ∧ isExcluded ex g = false ∧ g.rotAngles.isSome) ∧
      (fuseLoop fuse ex wires cum rest).1 = groupAngles fuse cum gs ∧
      (∀ w, wires.contains w = true →
        onWire w rest = gs ++ onWire w (fuseLoop fuse ex wires cum rest).2) ∧
      (∀ w, wires.contains w = false →
        onWire w (fuseLoop fuse ex wires cum rest).2 = onWire w rest) ∧
      (fuseLoop fuse ex wires cum rest).2.length + gs.length = rest.length ∧
      (∀ g ∈ (fuseLoop fuse ex wires cum rest).2, g ∈ rest) := by
  induction cum, rest using fuseLoop.induct fuse ex wires with
  | case1 cum rest h =>
    refine ⟨[], by simp, ?_, ?_, ?_, ?_, ?_⟩ <;>
      simp [fuseLoop_of_find_none h, groupAngles]
  | case2 cum rest idx h ng hw hex =>
    have hw' : wires = (rest.getD idx default).wires := hw
    have hex' : isExcluded ex (rest.getD idx default) = true := hex
    have hstop := @fuseLoop_of_excluded fuse ex wires cum rest idx h hw' hex'
    refine ⟨[], by simp, ?_, ?_, ?_, ?_, ?_⟩ <;>
      simp [hstop, groupAngles]
  | case3 cum rest idx h ng hw hex ha =>
    have hw' : wires = (rest.getD idx default).wires := hw
    have hex' : isExcluded ex (rest.getD idx default) = false := by
      have hex2 : ¬isExcluded ex (rest.getD idx default) = true := hex
      simpa using hex2
    have ha' : (rest.getD idx default).rotAngles = none := ha
    have hstop := @fuseLoop_of_no_angles fuse ex wires cum rest idx h hw' hex' ha'
    refine ⟨[], by simp, ?_, ?_, ?_, ?_, ?_⟩ <;>
      simp [hstop, groupAngles]
  | case4 cum rest idx h ng hw hex na ha ih =>
    have hw' : wires = (rest.getD idx default).wires := hw
    have hex' : isExcluded ex (rest.getD idx default) = false := by
      have hex2 : ¬isExcluded ex (rest.getD idx default) = true := hex
      simpa using hex2
    have ha' : (rest.getD idx default).rotAngles = some na := ha
    have hmerge := @fuseLoop_merge fuse ex wires cum rest idx na h hw' hex' ha'
    obtain ⟨pre, g, post, hsplit, hlen, hpre, hshare, hget, herase⟩ := find_next_gate_split h
    rw [hget] at hw' hex' ha'
    obtain ⟨gs', hconds', hang', hfwd', hbwd', hlen', hmem'⟩ := ih
    rw [herase] at hmerge hang' hfwd' hbwd' hlen' hmem'
    refine ⟨g :: gs', ?_, ?_, ?_, ?_, ?_, ?_⟩
    · intro x hx
      rcases List.mem_cons.mp hx with hx | hx
      · subst hx
        exact ⟨hw'.symm, hex', by simp [ha']⟩
      · exact hconds' x hx
    · rw [hmerge, hang']
      simp [groupAngles, angOf, ha']
    · intro w hwc
      have hgw : g.wires.contains w = true := by rw [← hw']; exact hwc
      have hpre0 : onWire w pre = [] :=
        onWire_eq_nil (fun x hx => not_onWire_of_not_shares (hpre x hx) hwc)
      have hrest : onWire w rest = g :: onWire w (pre ++ post) := by
        rw [hsplit, onWire_append, onWire_cons_pos post hgw, onWire_append, hpre0]
        simp
      rw [hmerge, hrest, hfwd' w hwc]
      simp
    · intro w hwc
      have hgw : g.wires.contains w = false := by rw [← hw']; exact hwc
      have herest : onWire w (pre ++ post) = onWire w rest := by
        rw [hsplit, onWire_append, onWire_append, onWire_cons_neg post hgw]
      rw [hmerge, hbwd' w hwc, herest]
    · rw [hmerge]
      simp only [List.length_append] at hlen'
      have h2 : rest.length = pre.length + post.length + 1 := by
        rw [hsplit]
        simp only [List.length_append, List.length_cons]
        omega
      simp only [List.length_cons]
      rw [h2]
      omega
    · intro x hx
      rw [hmerge] at hx
      have hx2 := hmem' x hx
      rw [hsplit]
      rcases List.mem_append.mp hx2 with hx' | hx'
      · exact List.mem_append.mpr (Or.inl hx')
      · exact List.mem_append.mpr (Or.inr (List.mem_cons_of_mem _ hx'))
  | case5 cum rest idx h ng hw =>
    have hw' : wires ≠ (rest.getD idx default).wires := hw
    have hstop := @fuseLoop_of_wires_ne fuse ex wires cum rest idx h hw'
    refine ⟨[], by simp, ?_, ?_, ?_, ?_, ?_⟩ <;>
      simp [hstop, groupAngles]

/-- One iteration of the outer `while len(list_copy) > 0` loop of
`single_qubit_fusion` (lines 76-136 of the source), on a non-empty working
list: returns the operations queued by this iteration together with the
working list that remains after the iteration (head popped, merged gates
deleted). -/
def outer_step (fuse : Angles → Angles → Angles) (atol : ℚ)
    (exclude_gates : Option (List String)) :
    List Operation → List Operation × List Operation
  | [] => ([], [])
  | current_gate :: rest =>
    if isExcluded exclude_gates current_gate then
      ([current_gate], rest)
    else
      match current_gate.rotAngles with
      | none => ([current_gate], rest)
      | some cumulative_angles =>
        match find_next_gate current_gate.wires rest with
        | none => ([current_gate], rest)
        | some _ =>
          let res := fuseLoop fuse exclude_gates current_gate.wires cumulative_angles rest
          (if allclose res.1 zeros3 atol 0 then [] else [Rot res.1 current_gate.wires],
            res.2)

theorem outer_step_snd_length (fuse : Angles → Angles → Angles) (atol : ℚ)
    (ex : Option (List String)) (c : Operation) (rest : List Operation) :
    (outer_step fuse atol ex (c :: rest)).2.length ≤ rest.length := by
  by_cases hexc : isExcluded ex c = true
  · simp [outer_step, hexc]
  · cases ha : c.rotAngles with
    | none => simp [outer_step, hexc, ha]
    | some angles =>
      cases hf : find_next_gate c.wires rest with
      | none => simp [outer_step, hexc, ha, hf]
      | some i =>
        obtain ⟨gs, -, -, -, -, hlen, -⟩ := fuseLoop_spec fuse ex c.wires angles rest
        simp only [outer_step, hexc, ha, hf]
        simp only [Bool.false_eq_true, if_false]
        omega

/-- The `single_qubit_fusion` transform on the operation list: the outer
loop run to exhaustion, concatenating the queued operations. -/
def single_qubit_fusion (fuse : Angles → Angles → Angles) (atol : ℚ)
    (exclude_gates : Option (List String)) (ops : List Operation) : List Operation :=
  match ops with
  | [] => []
  | current_gate :: rest =>
    (outer_step fuse atol exclude_gates (current_gate :: rest)).1 ++
      single_qubit_fusion fuse atol exclude_gates
        (outer_step fuse atol exclude_gates (current_gate :: rest)).2
termination_by ops.length
decreasing_by
  simp only [List.length_cons]
  exact Nat.lt_succ_of_le (outer_step_snd_length _ _ _ _ _)

/-- A quantum tape: an ordered operation list followed by an ordered
measurement list (measurements are opaque to the fusion pass). -/
structure Tape (M : Type) where
  operations : List Operation
  measurements : List M
deriving DecidableEq

/-- The full transform on a tape: run the pass over (a copy of) the
operation list, then queue every measurement of the original tape, in
order (lines 138-140 of the source). -/
def single_qubit_fusion_tape {M : Type} (fuse : Angles → Angles → Angles) (atol : ℚ)
    (exclude_gates : Option (List String)) (tape : Tape M) : Tape M :=
  { operations := single_qubit_fusion fuse atol exclude_gates tape.operations
    measurements := tape.measurements }

/-- The pass state while `single_qubit_fusion` runs: the input tape (never
written to), the working copy `list_copy` of the operation list, and the
operations queued so far into the new recording. -/
structure PassState (M : Type) where
  tape : Tape M
  list_copy : List Operation
  queued : List Operation

/-- One outer-loop iteration as a state transition; the identity once
`list_copy` is empty. -/
def fusionStep {M : Type} (fuse : Angles → Angles → Angles) (atol : ℚ)
    (exclude_gates : Option (List String)) (s : PassState M) : PassState M :=
  match s.list_copy with
  | [] => s
  | current_gate :: rest =>
    { tape := s.tape
      list_copy := (outer_step fuse atol exclude_gates (current_gate :: rest)).2
      queued := s.queued ++ (outer_step fuse atol exclude_gates (current_gate :: rest)).1 }

/-- Iterate the outer loop `n` times. -/
def runSteps {M : Type} (fuse : Angles → Angles → Angles) (atol : ℚ)
    (exclude_gates : Option (List String)) : Nat → PassState M → PassState M
  | 0, s => s
  | n + 1, s => runSteps fuse atol exclude_gates n (fusionStep fuse atol exclude_gates s)

/-- The state at entry of the loop: `list_copy = tape.operations.copy()`,
nothing queued yet. -/
def initState {M : Type} (t : Tape M) : PassState M :=
  { tape := t, list_copy := t.operations, queued := [] }

/-- A fusible adjacency is present in `L`: some gate `g` of `L` is
angle-capable and not excluded, and the next gate acting on an intersecting
wire after it exists, acts on exactly the same wires, is angle-capable and
is not excluded — i.e. a head position at which the pass would merge. -/
def hasFusiblePair (ex : Option (List String)) : List Operation → Bool
  | [] => false
  | g :: tl =>
    (!(isExcluded ex g) && g.rotAngles.isSome &&
      (match find_next_gate g.wires tl with
       | none => false
       | some i =>
         decide (g.wires = (tl.getD i default).wires) &&
           !(isExcluded ex (tl.getD i default)) &&
           (tl.getD i default).rotAngles.isSome)) ||
      hasFusiblePair ex tl

/-- Per-wire correspondence between an input operation sequence and an
output operation sequence: the output arises from the input by replacing
consecutive non-empty groups, in order and without reordering, where each
group is either a single operation kept verbatim, or a head gate together
with a run of same-wired angle-capable gates replaced by the single `Rot`
carrying the folded angles (or by nothing when the folded angles pass the
near-identity tolerance check).  Two input operations on a common wire
therefore keep their relative order (through their replacements) in the
output. -/
inductive FusedWire (fuse : Angles → Angles → Angles) (atol : ℚ) :
    List Operation → List Operation → Prop where
  | nil : FusedWire fuse atol [] []
  | keep (g : Operation) (xs ys : List Operation) :
      FusedWire fuse atol xs ys → FusedWire fuse atol (g :: xs) (g :: ys)
  | group_rot (g : Operation) (a : Angles) (gs xs ys : List Operation) :
      g.rotAngles = some a →
      (∀ h ∈ gs, h.wires = g.wires ∧ h.rotAngles.isSome) →
      allclose (groupAngles fuse a gs) zeros3 atol 0 = false →
      FusedWire fuse atol xs ys →
      FusedWire fuse atol (g :: (gs ++ xs)) (Rot (groupAngles fuse a gs) g.wires :: ys)
  | group_drop (g : Operation) (a : Angles) (gs xs ys : List Operation) :
      g.rotAngles = some a →
      (∀ h ∈ gs, h.wires = g.wires ∧ h.rotAngles.isSome) →
      allclose (groupAngles fuse a gs) zeros3 atol 0 = true →
      FusedWire fuse atol xs ys →
      FusedWire fuse atol (g :: (gs ++ xs)) ys

/-- Strong induction on the length of an operation list. -/
theorem list_length_induction (P : List Operation → Prop)
    (H : ∀ ops, (∀ ops2, ops2.length < ops.length → P ops2) → P ops)
    (ops : List Operation) : P ops :=
  H ops (fun ops2 hlt => list_length_induction P H ops2)
termination_by ops.length
decreasing_by exact hlt

/-! ### Branch lemmas for the outer loop -/

theorem outer_step_excluded {fuse : Angles → Angles → Angles} {atol : ℚ}
    {ex : Option (List String)} {c : Operation} {rest : List Operation}
    (h : isExcluded ex c = true) :
    outer_step fuse atol ex (c :: rest) = ([c], rest) := by
  simp [outer_step, h]

theorem outer_step_no_angles {fuse : Angles → Angles → Angles} {atol : ℚ}
    {ex : Option (List String)} {c : Operation} {rest : List Operation}
    (hexc : isExcluded ex c = false) (ha : c.rotAngles = none) :
    outer_step fuse atol ex (c :: rest) = ([c], rest) := by
  simp [outer_step, hexc, ha]

theorem outer_step_no_next {fuse : Angles → Angles → Angles} {atol : ℚ}
    {ex : Option (List String)} {c : Operation} {rest : List Operation} {a : Angles}
    (hexc : isExcluded ex c = false) (ha : c.rotAngles = some a)
    (hf : find_next_gate c.wires rest = none) :
    outer_step fuse atol ex (c :: rest) = ([c], rest) := by
  simp [outer_step, hexc, ha, hf]

theorem outer_step_fuse {fuse : Angles → Angles → Angles} {atol : ℚ}
    {ex : Option (List String)} {c : Operation} {rest : List Operation} {a : Angles}
    {i : Nat} (hexc : isExcluded ex c = false) (ha : c.rotAngles = some a)
    (hf : find_next_gate c.wires rest = some i) :
    outer_step fuse atol ex (c :: rest) =
      (if allclose (fuseLoop fuse ex c.wires a rest).1 zeros3 atol 0 then []
        else [Rot (fuseLoop fuse ex c.wires a rest).1 c.wires],
        (fuseLoop fuse ex c.wires a rest).2) := by
  simp [outer_step, hexc, ha, hf]

theorem single_qubit_fusion_nil (fuse : Angles → Angles → Angles) (atol : ℚ)
    (ex : Option (List String)) : single_qubit_fusion fuse atol ex [] = [] := by
  rw [single_qubit_fusion]

theorem single_qubit_fusion_cons (fuse : Angles → Angles → Angles) (atol : ℚ)
    (ex : Option (List String)) (c : Operation) (rest : List Operation) :
    single_qubit_fusion fuse atol ex (c :: rest) =
      (outer_step fuse atol ex (c :: rest)).1 ++
        single_qubit_fusion fuse atol ex (outer_step fuse atol ex (c :: rest)).2 := by
  rw [single_qubit_fusion]

theorem single_qubit_fusion_excluded {fuse : Angles → Angles → Angles} {atol : ℚ}
    {ex : Option (List String)} {c : Operation} {rest : List Operation}
    (h : isExcluded ex c = true) :
    single_qubit_fusion fuse atol ex (c :: rest) =
      c :: single_qubit_fusion fuse atol ex rest := by
  rw [single_qubit_fusion_cons, outer_step_excluded h]
  rfl

theorem single_qubit_fusion_no_angles {fuse : Angles → Angles → Angles} {atol : ℚ}
    {ex : Option (List String)} {c : Operation} {rest : List Operation}
    (hexc : isExcluded ex c = false) (ha : c.rotAngles = none) :
    single_qubit_fusion fuse atol ex (c :: rest) =
      c :: single_qubit_fusion fuse atol ex rest := by
  rw [single_qubit_fusion_cons, outer_step_no_angles hexc ha]
  rfl

theorem single_qubit_fusion_no_next {fuse : Angles → Angles → Angles} {atol : ℚ}
    {ex : Option (List String)} {c : Operation} {rest : List Operation} {a : Angles}
    (hexc : isExcluded ex c = false) (ha : c.rotAngles = some a)
    (hf : find_next_gate c.wires rest = none) :
    single_qubit_fusion fuse atol ex (c :: rest) =
      c :: single_qubit_fusion fuse atol ex rest := by
  rw [single_qubit_fusion_cons, outer_step_no_next hexc ha hf]
  rfl

theorem single_qubit_fusion_fuse {fuse : Angles → Angles → Angles} {atol : ℚ}
    {ex : Option (List String)} {c : Operation} {rest : List Operation} {a : Angles}
    {i : Nat} (hexc : isExcluded ex c = false) (ha : c.rotAngles = some a)
    (hf : find_next_gate c.wires rest = some i) :
    single_qubit_fusion fuse atol ex (c :: rest) =
      (if allclose (fuseLoop fuse ex c.wires a rest).1 zeros3 atol 0 then []
        else [Rot (fuseLoop fuse ex c.wires a rest).1 c.wires]) ++
        single_qubit_fusion fuse atol ex (fuseLoop fuse ex c.wires a rest).2 := by
  rw [single_qubit_fusion_cons, outer_step_fuse hexc ha hf]

/-! ### Numeric and machine support lemmas -/

theorem allclose_zeros_iff (θ : Angles) (atol : ℚ) :
    allclose θ zeros3 atol 0 = true ↔
      |θ.1| ≤ atol ∧ |θ.2.1| ≤ atol ∧ |θ.2.2| ≤ atol := by
  simp [allclose, allcloseQ, zeros3]
  tauto

theorem fusionStep_tape {M : Type} (fuse : Angles → Angles → Angles) (atol : ℚ)
    (ex : Option (List String)) (s : PassState M) :
    (fusionStep fuse atol ex s).tape = s.tape := by
  cases h : s.list_copy with
  | nil => simp [fusionStep, h]
  | cons c rest => simp [fusionStep, h]

theorem runSteps_tape {M : Type} (fuse : Angles → Angles → Angles) (atol : ℚ)
    (ex : Option (List String)) (n : Nat) :
    ∀ s : PassState M, (runSteps fuse atol ex n s).tape = s.tape := by
  induction n with
  | zero => intro s; rfl
  | succ n ih =>
    intro s
    have hstep : runSteps fuse atol ex (n + 1) s =
        runSteps fuse atol ex n (fusionStep fuse atol ex s) := rfl
    rw [hstep, ih, fusionStep_tape]

theorem runSteps_exhausts {M : Type} (fuse : Angles → Angles → Angles) (atol : ℚ)
    (ex : Option (List String)) (n : Nat) :
    ∀ s : PassState M, s.list_copy.length ≤ n →
      (runSteps fuse atol ex n s).list_copy = [] := by
  induction n with
  | zero =>
    intro s h
    have hnil : s.list_copy = [] := List.length_eq_zero.mp (Nat.le_zero.mp h)
    simpa [runSteps] using hnil
  | succ n ih =>
    intro s h
    have hstep : runSteps fuse atol ex (n + 1) s =
        runSteps fuse atol ex n (fusionStep fuse atol ex s) := rfl
    rw [hstep]
    apply ih
    cases hl : s.list_copy with
    | nil => simp [fusionStep, hl]
    | cons c rest =>
      have hlen := outer_step_snd_length fuse atol ex c rest
      rw [hl] at h
      simp only [List.length_cons] at h
      simp [fusionStep, hl]
      omega

/-! ### Claim theorems -/

/-- C8: for every input tape, after the operation list has been fully
processed, every measurement of the original tape is appended to the
output unchanged and in its original order, regardless of what fusion did
to the operations (for every `fuse_rot_angles`, tolerance and exclusion
list). -/
theorem measurements_appended_unchanged {M : Type} (fuse : Angles → Angles → Angles)
    (atol : ℚ) (ex : Option (List String)) (tape : Tape M) :
    (single_qubit_fusion_tape fuse atol ex tape).measurements = tape.measurements :=
  rfl

/-- C9: the pass works only on a local copy of the operation list
(`list_copy`): across any number of outer-loop iterations run from the
initial state, the input tape component is never written, so the original
tape's operation and measurement sequences are unchanged. -/
theorem input_tape_unmodified {M : Type} (fuse : Angles → Angles → Angles)
    (atol : ℚ) (ex : Option (List String)) (tape : Tape M) (n : Nat) :
    (runSteps fuse atol ex n (initState tape)).tape.operations = tape.operations ∧
    (runSteps fuse atol ex n (initState tape)).tape.measurements = tape.measurements := by
  rw [runSteps_tape fuse atol ex n (initState tape)]
  exact ⟨rfl, rfl⟩

/-- C10: the pass terminates on every finite tape: each outer iteration
strictly shrinks the working list (the head is always popped), each inner
merge deletes exactly one further element, the inner loop never grows the
list, and after at most `tape.operations.length` outer iterations the
working list is exhausted. -/
theorem fusion_pass_terminates {M : Type} (fuse : Angles → Angles → Angles)
    (atol : ℚ) (ex : Option (List String)) :
    (∀ c rest, (outer_step fuse atol ex (c :: rest)).2.length < (c :: rest).length) ∧
    (∀ W rest i, find_next_gate W rest = some i →
      (rest.eraseIdx i).length + 1 = rest.length) ∧
    (∀ wires cum rest, (fuseLoop fuse ex wires cum rest).2.length ≤ rest.length) ∧
    (∀ tape : Tape M,
      (runSteps fuse atol ex tape.operations.length (initState tape)).list_copy = []) := by
  refine ⟨?_, ?_, ?_, ?_⟩
  · intro c rest
    simp only [List.length_cons]
    exact Nat.lt_succ_of_le (outer_step_snd_length fuse atol ex c rest)
  · intro W rest i h
    obtain ⟨pre, g, post, hsplit, -, -, -, -, herase⟩ := find_next_gate_split h
    rw [herase, hsplit]
    simp only [List.length_append, List.length_cons]
    omega
  · intro wires cum rest
    obtain ⟨gs, -, -, -, -, hlen, -⟩ := fuseLoop_spec fuse ex wires cum rest
    omega
  · intro tape
    exact runSteps_exhausts fuse atol ex tape.operations.length (initState tape) le_rfl

/-- Witness for C10 at a concrete input. -/
theorem fusion_pass_terminates_witness :
    (outer_step (fun a _ => a) 0 none [(⟨"RZ", [0], some (1, 0, 0)⟩ : Operation)]).2.length <
      [(⟨"RZ", [0], some (1, 0, 0)⟩ : Operation)].length ∧
    ([(⟨"RZ", [0], some (1, 0, 0)⟩ : Operation)].eraseIdx 0).length + 1 =
      [(⟨"RZ", [0], some (1, 0, 0)⟩ : Operation)].length :=
  ⟨(fusion_pass_terminates (M := Unit) (fun a _ => a) 0 none).1 ⟨"RZ", [0], some (1, 0, 0)⟩ [],
    (fusion_pass_terminates (M := Unit) (fun a _ => a) 0 none).2.1 [0]
      [⟨"RZ", [0], some (1, 0, 0)⟩] 0 rfl⟩

/-- C5: a gate whose name is in the exclusion set is never merged into a
fused rotation: as the head of the working list it is emitted unchanged
and the pass advances; as the next gate on exactly the same wires it
terminates the accumulation without being absorbed — the cumulative
angles and the remaining list are returned untouched. -/
theorem excluded_gate_never_merged (fuse : Angles → Angles → Angles) (atol : ℚ)
    (ex : Option (List String)) :
    (∀ c rest, isExcluded ex c = true →
      single_qubit_fusion fuse atol ex (c :: rest) =
        c :: single_qubit_fusion fuse atol ex rest) ∧
    (∀ wires cum rest idx, find_next_gate wires rest = some idx →
      wires = (rest.getD idx default).wires →
      isExcluded ex (rest.getD idx default) = true →
      fuseLoop fuse ex wires cum rest = (cum, rest)) := by
  constructor
  · intro c rest h
    exact single_qubit_fusion_excluded h
  · intro wires cum rest idx hf hw hexc
    exact fuseLoop_of_excluded hf hw hexc

/-- Witness for C5 at a concrete input. -/
theorem excluded_gate_never_merged_witness :
    single_qubit_fusion (fun a _ => a) 0 (some ["PauliX"])
        [(⟨"PauliX", [0], some (1, 2, 3)⟩ : Operation)] =
      ⟨"PauliX", [0], some (1, 2, 3)⟩ ::
        single_qubit_fusion (fun a _ => a) 0 (some ["PauliX"]) [] ∧
    fuseLoop (fun a _ => a) (some ["PauliX"]) [0] (1, 0, 0)
        [(⟨"PauliX", [0], some (1, 2, 3)⟩ : Operation)] =
      ((1, 0, 0), [⟨"PauliX", [0], some (1, 2, 3)⟩]) :=
  ⟨(excluded_gate_never_merged (fun a _ => a) 0 (some ["PauliX"])).1
      ⟨"PauliX", [0], some (1, 2, 3)⟩ [] rfl,
    (excluded_gate_never_merged (fun a _ => a) 0 (some ["PauliX"])).2
      [0] (1, 0, 0) [⟨"PauliX", [0], some (1, 2, 3)⟩] 0 rfl rfl rfl⟩

/-- C6: a gate that does not support the `single_qubit_rot_angles`
decomposition (modelled as `rotAngles = none`, standing for the caught
`NotImplementedError`/`AttributeError`) is not an error: it is emitted
unchanged and the pass continues with the rest of the tape — the
embedding is a total function, so nothing propagates to the caller.  In
particular `[Hadamard(0), Rot(r1,r2,r3)(0)]` (Hadamard lacking the
decomposition, as the spec's scenario states) is left as exactly these
two operations in unchanged order. -/
theorem unsupported_gate_skipped (fuse : Angles → Angles → Angles) (atol : ℚ)
    (ex : Option (List String)) :
    (∀ c rest, isExcluded ex c = false → c.rotAngles = none →
      single_qubit_fusion fuse atol ex (c :: rest) =
        c :: single_qubit_fusion fuse atol ex rest) ∧
    (∀ r1 r2 r3 : ℚ,
      single_qubit_fusion fuse atol none
        [⟨"Hadamard", [0], none⟩, ⟨"Rot", [0], some (r1, r2, r3)⟩] =
        [⟨"Hadamard", [0], none⟩, ⟨"Rot", [0], some (r1, r2, r3)⟩]) := by
  constructor
  · intro c rest hexc ha
    exact single_qubit_fusion_no_angles hexc ha
  · intro r1 r2 r3
    rw [@single_qubit_fusion_no_angles fuse atol none ⟨"Hadamard", [0], none⟩
        [⟨"Rot", [0], some (r1, r2, r3)⟩] rfl rfl,
      @single_qubit_fusion_no_next fuse atol none ⟨"Rot", [0], some (r1, r2, r3)⟩
        [] (r1, r2, r3) rfl rfl rfl,
      single_qubit_fusion_nil]

/-- Witness for C6 at a concrete input. -/
theorem unsupported_gate_skipped_witness :
    single_qubit_fusion (fun a _ => a) 0 none [(⟨"Hadamard", [0], none⟩ : Operation)] =
      ⟨"Hadamard", [0], none⟩ :: single_qubit_fusion (fun a _ => a) 0 none [] ∧
    single_qubit_fusion (fun a _ => a) 0 none
        [(⟨"Hadamard", [0], none⟩ : Operation), ⟨"Rot", [0], some (1, 2, 3)⟩] =
      [⟨"Hadamard", [0], none⟩, ⟨"Rot", [0], some (1, 2, 3)⟩] :=
  ⟨(unsupported_gate_skipped (fun a _ => a) 0 none).1 ⟨"Hadamard", [0], none⟩ [] rfl rfl,
    (unsupported_gate_skipped (fun a _ => a) 0 none).2 1 2 3⟩

/-- C1 is false as stated: with head `RZ` on wire 0 whose decomposition is
`(0,0,0)` — every angle of absolute value at most `atol = 1/10^8` — and no
later operation intersecting wire 0, the pass emits the head gate
unchanged (one operation, and not a `Rot`), whereas the claim's
near-identity check requires that nothing be emitted. -/
theorem no_next_gate_tolerance_counterexample :
    (|(0 : ℚ)| ≤ 1 / 100000000 ∧ |(0 : ℚ)| ≤ 1 / 100000000 ∧
      |(0 : ℚ)| ≤ 1 / 100000000) ∧
    single_qubit_fusion (fun a _ => a) (1 / 100000000) none
        [(⟨"RZ", [0], some (0, 0, 0)⟩ : Operation)] =
      [⟨"RZ", [0], some (0, 0, 0)⟩] := by
  constructor
  · norm_num
  · rw [@single_qubit_fusion_no_next (fun a _ => a) (1 / 100000000) none
        ⟨"RZ", [0], some (0, 0, 0)⟩ [] (0, 0, 0) rfl rfl rfl, single_qubit_fusion_nil]

/-- C1 (amended): when the head operation supports
`single_qubit_rot_angles`, is not excluded, and no later operation in the
remaining list has wires intersecting the head's wires, the pass emits the
head operation itself, unchanged — it does not convert it to a `Rot` and
applies no near-identity tolerance check in this branch — and advances. -/
theorem no_next_gate_emits_head_unchanged (fuse : Angles → Angles → Angles)
    (atol : ℚ) (ex : Option (List String)) (c : Operation) (rest : List Operation)
    (a : Angles) (hexc : isExcluded ex c = false) (ha : c.rotAngles = some a)
    (hnone : ∀ g ∈ rest, sharesWires c.wires g = false) :
    single_qubit_fusion fuse atol ex (c :: rest) =
      c :: single_qubit_fusion fuse atol ex rest :=
  single_qubit_fusion_no_next hexc ha (find_next_gate_none_iff.mpr hnone)

/-- Witness for the amended C1 at a concrete input. -/
theorem no_next_gate_emits_head_unchanged_witness :
    single_qubit_fusion (fun a _ => a) (1 / 100000000) none
        [(⟨"RZ", [0], some (0, 0, 0)⟩ : Operation), ⟨"PauliY", [1], none⟩] =
      ⟨"RZ", [0], some (0, 0, 0)⟩ ::
        single_qubit_fusion (fun a _ => a) (1 / 100000000) none
          [⟨"PauliY", [1], none⟩] :=
  no_next_gate_emits_head_unchanged (fun a _ => a) (1 / 100000000) none
    ⟨"RZ", [0], some (0, 0, 0)⟩ [⟨"PauliY", [1], none⟩] (0, 0, 0) rfl rfl (by decide)

/-- C2: for every fusion group whose accumulation stops at the tolerance
check (head not excluded and angle-capable, with some later gate on an
intersecting wire, and `fuseLoop` returning cumulative angles `θ` and
remaining list `rest'`): if all three cumulative angles have absolute
value at most `atol`, no operation is emitted for the group; otherwise
exactly one `Rot` carrying `θ` on the head gate's wires is emitted. -/
theorem fusion_group_tolerance_check (fuse : Angles → Angles → Angles) (atol : ℚ)
    (ex : Option (List String)) (c : Operation) (rest rest' : List Operation)
    (a θ : Angles) (i : Nat)
    (hexc : isExcluded ex c = false) (ha : c.rotAngles = some a)
    (hf : find_next_gate c.wires rest = some i)
    (hloop : fuseLoop fuse ex c.wires a rest = (θ, rest')) :
    ((|θ.1| ≤ atol ∧ |θ.2.1| ≤ atol ∧ |θ.2.2| ≤ atol) →
      single_qubit_fusion fuse atol ex (c :: rest) =
        single_qubit_fusion fuse atol ex rest') ∧
    (¬(|θ.1| ≤ atol ∧ |θ.2.1| ≤ atol ∧ |θ.2.2| ≤ atol) →
      single_qubit_fusion fuse atol ex (c :: rest) =
        Rot θ c.wires :: single_qubit_fusion fuse atol ex rest') := by
  have h1 : (fuseLoop fuse ex c.wires a rest).1 = θ := by rw [hloop]
  have h2 : (fuseLoop fuse ex c.wires a rest).2 = rest' := by rw [hloop]
  constructor
  · intro habs
    have hclose : allclose θ zeros3 atol 0 = true := (allclose_zeros_iff θ atol).mpr habs
    rw [single_qubit_fusion_fuse hexc ha hf, h1, h2, hclose]
    simp
  · intro habs
    have hclose : allclose θ zeros3 atol 0 = false := by
      cases hc : allclose θ zeros3 atol 0
      · rfl
      · exact absurd ((allclose_zeros_iff θ atol).mp hc) habs
    rw [single_qubit_fusion_fuse hexc ha hf, h1, h2, hclose]
    simp

/-- Witness for C2 at a concrete input (`Rot(1,0,0)` and `RZ(2,0,0)` on
wire 0 fusing — with first-projection as the abstract angle composition —
to cumulative angles `(1,0,0)`, emitted as one `Rot`). -/
theorem fusion_group_tolerance_check_witness :
    ¬(|(1 : ℚ)| ≤ 1 / 100000000 ∧ |(0 : ℚ)| ≤ 1 / 100000000 ∧
        |(0 : ℚ)| ≤ 1 / 100000000) ∧
    single_qubit_fusion (fun p _ => p) (1 / 100000000) none
        [(⟨"Rot", [0], some (1, 0, 0)⟩ : Operation), ⟨"RZ", [0], some (2, 0, 0)⟩] =
      Rot (1, 0, 0) [0] ::
        single_qubit_fusion (fun p _ => p) (1 / 100000000) none [] := by
  have h1 := @fuseLoop_merge (fun p _ => p) none [0] (1, 0, 0)
    [(⟨"RZ", [0], some (2, 0, 0)⟩ : Operation)] 0 (2, 0, 0) rfl rfl rfl rfl
  have h2 := @fuseLoop_of_find_none (fun p _ => p) none [0] (1, 0, 0) [] rfl
  have hloop : fuseLoop (fun p _ => p) none [0] (1, 0, 0)
      [(⟨"RZ", [0], some (2, 0, 0)⟩ : Operation)] = ((1, 0, 0), []) := h1.trans h2
  refine ⟨by norm_num, ?_⟩
  exact (fusion_group_tolerance_check (fun p _ => p) (1 / 100000000) none
    ⟨"Rot", [0], some (1, 0, 0)⟩ [⟨"RZ", [0], some (2, 0, 0)⟩] [] (1, 0, 0) (1, 0, 0) 0
    rfl rfl rfl hloop).2 (by norm_num)

/-- C7: the spec's four-gate scenario: `[Rot(0.1,0.2,0.3), Rot(0.4,0.5,0.6),
RZ(0.1), RZ(0.4)]`, all on wire 0 (with `RZ(t)` decomposing as `(t,0,0)`),
fuses to exactly one composite rotation on wire 0 whose three angles are
the four-fold left-nested `fuse_rot_angles` composition of the four
decompositions — provided the composite is not dropped by the pass's
near-identity tolerance check (with the library's Euler composition and
default tolerance it is not). -/
theorem four_gate_fusion_scenario (fuse : Angles → Angles → Angles) (atol : ℚ)
    (hne : allclose
      (fuse (fuse (fuse (1/10, 2/10, 3/10) (4/10, 5/10, 6/10)) (1/10, 0, 0)) (4/10, 0, 0))
      zeros3 atol 0 = false) :
    single_qubit_fusion fuse atol none
      [⟨"Rot", [0], some (1/10, 2/10, 3/10)⟩,
        ⟨"Rot", [0], some (4/10, 5/10, 6/10)⟩,
        ⟨"RZ", [0], some (1/10, 0, 0)⟩,
        ⟨"RZ", [0], some (4/10, 0, 0)⟩] =
      [Rot (fuse (fuse (fuse (1/10, 2/10, 3/10) (4/10, 5/10, 6/10)) (1/10, 0, 0))
        (4/10, 0, 0)) [0]] := by
  have h1 := @fuseLoop_merge fuse none [0] (1/10, 2/10, 3/10)
    [(⟨"Rot", [0], some (4/10, 5/10, 6/10)⟩ : Operation),
      ⟨"RZ", [0], some (1/10, 0, 0)⟩, ⟨"RZ", [0], some (4/10, 0, 0)⟩]
    0 (4/10, 5/10, 6/10) rfl rfl rfl rfl
  have h2 := @fuseLoop_merge fuse none [0] (fuse (1/10, 2/10, 3/10) (4/10, 5/10, 6/10))
    [(⟨"RZ", [0], some (1/10, 0, 0)⟩ : Operation), ⟨"RZ", [0], some (4/10, 0, 0)⟩]
    0 (1/10, 0, 0) rfl rfl rfl rfl
  have h3 := @fuseLoop_merge fuse none [0]
    (fuse (fuse (1/10, 2/10, 3/10) (4/10, 5/10, 6/10)) (1/10, 0, 0))
    [(⟨"RZ", [0], some (4/10, 0, 0)⟩ : Operation)] 0 (4/10, 0, 0) rfl rfl rfl rfl
  have h4 := @fuseLoop_of_find_none fuse none [0]
    (fuse (fuse (fuse (1/10, 2/10, 3/10) (4/10, 5/10, 6/10)) (1/10, 0, 0)) (4/10, 0, 0))
    [] rfl
  have hloop := h1.trans (h2.trans (h3.trans h4))
  rw [@single_qubit_fusion_fuse fuse atol none ⟨"Rot", [0], some (1/10, 2/10, 3/10)⟩
    [⟨"Rot", [0], some (4/10, 5/10, 6/10)⟩, ⟨"RZ", [0], some (1/10, 0, 0)⟩,
      ⟨"RZ", [0], some (4/10, 0, 0)⟩] (1/10, 2/10, 3/10) 0 rfl rfl rfl]
  dsimp only
  rw [hloop]
  dsimp only
  rw [hne, single_qubit_fusion_nil]
  simp

/-- Witness for C7 at a concrete composition function (first projection)
and tolerance, discharging the non-near-identity hypothesis. -/
theorem four_gate_fusion_scenario_witness :
    single_qubit_fusion (fun p _ => p) (1 / 100000000) none
      [⟨"Rot", [0], some (1/10, 2/10, 3/10)⟩,
        ⟨"Rot", [0], some (4/10, 5/10, 6/10)⟩,
        ⟨"RZ", [0], some (1/10, 0, 0)⟩,
        ⟨"RZ", [0], some (4/10, 0, 0)⟩] =
      [Rot (1/10, 2/10, 3/10) [0]] :=
  four_gate_fusion_scenario (fun p _ => p) (1 / 100000000) (by
    norm_num [allclose, allcloseQ, zeros3]
    intro h _
    rw [abs_of_pos (by norm_num : (0 : ℚ) < 1 / 10)] at h
    norm_num at h)

theorem onWire_nil (w : Nat) : onWire w [] = [] := rfl

theorem fusedWire_cons_same {fuse : Angles → Angles → Angles} {atol : ℚ}
    {ex : Option (List String)} {c : Operation} {rest : List Operation} {w : Nat}
    (h : single_qubit_fusion fuse atol ex (c :: rest) =
      c :: single_qubit_fusion fuse atol ex rest)
    (ih : FusedWire fuse atol (onWire w rest)
      (onWire w (single_qubit_fusion fuse atol ex rest))) :
    FusedWire fuse atol (onWire w (c :: rest))
      (onWire w (single_qubit_fusion fuse atol ex (c :: rest))) := by
  rw [h]
  by_cases hcw : c.wires.contains w = true
  · rw [onWire_cons_pos _ hcw, onWire_cons_pos _ hcw]
    exact FusedWire.keep c _ _ ih
  · have hcw' : c.wires.contains w = false := by simpa using hcw
    rw [onWire_cons_neg _ hcw', onWire_cons_neg _ hcw']
    exact ih

/-- C3: order preservation on shared wires.  For every input list and every
wire `w`, the projection of the output to the operations acting on `w` is
related to the projection of the input by `FusedWire`: consecutive groups
of the input on-wire sequence are replaced, in order, each by at most one
operation (itself, or the single `Rot` that fused the group).  In
particular any two original operations sharing wire `w` keep, through the
operations that replace them, their relative order in the output. -/
theorem wire_order_preserved (fuse : Angles → Angles → Angles) (atol : ℚ)
    (ex : Option (List String)) (w : Nat) (ops : List Operation) :
    FusedWire fuse atol (onWire w ops)
      (onWire w (single_qubit_fusion fuse atol ex ops)) := by
  induction ops using list_length_induction with
  | _ ops ih =>
    cases ops with
    | nil =>
      rw [single_qubit_fusion_nil, onWire_nil]
      exact FusedWire.nil
    | cons c rest =>
      by_cases hexc : isExcluded ex c = true
      · exact fusedWire_cons_same (single_qubit_fusion_excluded hexc)
          (ih rest (by simp))
      · have hexc' : isExcluded ex c = false := by simpa using hexc
        cases ha : c.rotAngles with
        | none =>
          exact fusedWire_cons_same (single_qubit_fusion_no_angles hexc' ha)
            (ih rest (by simp))
        | some a =>
          cases hf : find_next_gate c.wires rest with
          | none =>
            exact fusedWire_cons_same (single_qubit_fusion_no_next hexc' ha hf)
              (ih rest (by simp))
          | some i =>
            obtain ⟨gs, hconds, hang, hfwd, hbwd, hlen, -⟩ :=
              fuseLoop_spec fuse ex c.wires a rest
            have hih := ih (fuseLoop fuse ex c.wires a rest).2
              (by simp only [List.length_cons]; omega)
            have hconds' : ∀ g ∈ gs, g.wires = c.wires ∧ g.rotAngles.isSome = true :=
              fun g hg => ⟨(hconds g hg).1, (hconds g hg).2.2⟩
            rw [single_qubit_fusion_fuse hexc' ha hf, hang]
            by_cases hcw : c.wires.contains w = true
            · rw [onWire_cons_pos _ hcw, hfwd w hcw, onWire_append]
              cases hclose : allclose (groupAngles fuse a gs) zeros3 atol 0 with
              | false =>
                rw [if_neg (by simp)]
                rw [onWire_cons_pos _ (show (Rot (groupAngles fuse a gs) c.wires).wires.contains w = true from hcw)]
                rw [onWire_nil]
                simp only [List.cons_append, List.nil_append]
                exact FusedWire.group_rot c a gs _ _ ha hconds' hclose hih
              | true =>
                rw [if_pos rfl, onWire_nil]
                simp only [List.nil_append]
                exact FusedWire.group_drop c a gs _ _ ha hconds' hclose hih
            · have hcw' : c.wires.contains w = false := by simpa using hcw
              rw [onWire_cons_neg _ hcw', ← hbwd w hcw', onWire_append]
              have houter : onWire w
                  (if allclose (groupAngles fuse a gs) zeros3 atol 0 = true then []
                    else [Rot (groupAngles fuse a gs) c.wires]) = [] := by
                split
                · rfl
                · rw [onWire_cons_neg _ (show (Rot (groupAngles fuse a gs) c.wires).wires.contains w = false from hcw'), onWire_nil]
              rw [houter]
              simp only [List.nil_append]
              exact hih

theorem sqf_wires_subset (fuse : Angles → Angles → Angles) (atol : ℚ)
    (ex : Option (List String)) (ops : List Operation) :
    ∀ g ∈ single_qubit_fusion fuse atol ex ops, ∃ h ∈ ops, g.wires = h.wires := by
  induction ops using list_length_induction with
  | _ ops ih =>
    cases ops with
    | nil =>
      rw [single_qubit_fusion_nil]
      intro g hg
      cases hg
    | cons c rest =>
      have hcons : ∀ out, single_qubit_fusion fuse atol ex (c :: rest) = c :: out →
          (∀ g ∈ out, ∃ h ∈ rest, g.wires = h.wires) →
          ∀ g ∈ single_qubit_fusion fuse atol ex (c :: rest),
            ∃ h ∈ c :: rest, g.wires = h.wires := by
        intro out hrw hsub g hg
        rw [hrw] at hg
        rcases List.mem_cons.mp hg with hg | hg
        · exact ⟨c, List.mem_cons_self c rest, by rw [hg]⟩
        · obtain ⟨x, hx, hxw⟩ := hsub g hg
          exact ⟨x, List.mem_cons_of_mem _ hx, hxw⟩
      by_cases hexc : isExcluded ex c = true
      · exact hcons _ (single_qubit_fusion_excluded hexc) (ih rest (by simp))
      · have hexc' : isExcluded ex c = false := by simpa using hexc
        cases ha : c.rotAngles with
        | none =>
          exact hcons _ (single_qubit_fusion_no_angles hexc' ha) (ih rest (by simp))
        | some a =>
          cases hf : find_next_gate c.wires rest with
          | none =>
            exact hcons _ (single_qubit_fusion_no_next hexc' ha hf) (ih rest (by simp))
          | some i =>
            obtain ⟨gs, -, -, -, -, hlen, hmem⟩ := fuseLoop_spec fuse ex c.wires a rest
            intro g hg
            rw [single_qubit_fusion_fuse hexc' ha hf] at hg
            rcases List.mem_append.mp hg with hg | hg
            · by_cases hclose :
                allclose (fuseLoop fuse ex c.wires a rest).1 zeros3 atol 0 = true
              · rw [if_pos hclose] at hg
                cases hg
              · rw [if_neg hclose] at hg
                have hgr : g = Rot (fuseLoop fuse ex c.wires a rest).1 c.wires := by
                  simpa using hg
                exact ⟨c, List.mem_cons_self c rest, by rw [hgr]; rfl⟩
            · obtain ⟨x, hx, hxw⟩ := ih (fuseLoop fuse ex c.wires a rest).2
                (by simp only [List.length_cons]; omega) g hg
              exact ⟨x, List.mem_cons_of_mem _ (hmem x hx), hxw⟩

theorem find_none_sqf (fuse : Angles → Angles → Angles) (atol : ℚ)
    (ex : Option (List String)) {W : List Nat} {ops : List Operation}
    (h : find_next_gate W ops = none) :
    find_next_gate W (single_qubit_fusion fuse atol ex ops) = none := by
  rw [find_next_gate_none_iff] at h ⊢
  intro g hg
  obtain ⟨x, hx, hxw⟩ := sqf_wires_subset fuse atol ex ops g hg
  have hxs := h x hx
  simp only [sharesWires, hxw]
  simpa [sharesWires] using hxs

/-- Invariant of the pass's output: whenever a gate `g` of the output is
angle-capable, not excluded, and followed in the output by some gate on an
intersecting wire, then `g` is a `Rot` carrying its own angles and those
angles are not within tolerance of zero.  (Unchanged originals with angle
capability are only ever emitted when no later operation intersects their
wires, and emitted `Rot`s passed the tolerance check.) -/
theorem sqf_goodOut (fuse : Angles → Angles → Angles) (atol : ℚ)
    (ex : Option (List String)) (ops : List Operation) :
    ∀ pre g post, single_qubit_fusion fuse atol ex ops = pre ++ g :: post →
      isExcluded ex g = false → g.rotAngles.isSome = true →
      find_next_gate g.wires post ≠ none →
      g = Rot (angOf g) g.wires ∧ allclose (angOf g) zeros3 atol 0 = false := by
  induction ops using list_length_induction with
  | _ ops ih =>
    cases ops with
    | nil =>
      intro pre g post hsplit
      rw [single_qubit_fusion_nil] at hsplit
      exact absurd hsplit (by simp)
    | cons c rest =>
      by_cases hexc : isExcluded ex c = true
      · intro pre g post hsplit hgex hgsome hgfind
        rw [single_qubit_fusion_excluded hexc] at hsplit
        cases pre with
        | nil =>
          injection hsplit with h1 h2
          rw [← h1, hexc] at hgex
          simp at hgex
        | cons p pre' =>
          injection hsplit with h1 h2
          exact ih rest (by simp) pre' g post h2 hgex hgsome hgfind
      · have hexc' : isExcluded ex c = false := by simpa using hexc
        cases ha : c.rotAngles with
        | none =>
          intro pre g post hsplit hgex hgsome hgfind
          rw [single_qubit_fusion_no_angles hexc' ha] at hsplit
          cases pre with
          | nil =>
            injection hsplit with h1 h2
            rw [← h1, ha] at hgsome
            simp at hgsome
          | cons p pre' =>
            injection hsplit with h1 h2
            exact ih rest (by simp) pre' g post h2 hgex hgsome hgfind
        | some a =>
          cases hf : find_next_gate c.wires rest with
          | none =>
            intro pre g post hsplit hgex hgsome hgfind
            rw [single_qubit_fusion_no_next hexc' ha hf] at hsplit
            cases pre with
            | nil =>
              injection hsplit with h1 h2
              rw [← h1, ← h2] at hgfind
              exact absurd (find_none_sqf fuse atol ex hf) hgfind
            | cons p pre' =>
              injection hsplit with h1 h2
              exact ih rest (by simp) pre' g post h2 hgex hgsome hgfind
          | some i =>
            obtain ⟨gs, -, -, -, -, hlen, -⟩ := fuseLoop_spec fuse ex c.wires a rest
            intro pre g post hsplit hgex hgsome hgfind
            rw [single_qubit_fusion_fuse hexc' ha hf] at hsplit
            by_cases hclose :
                allclose (fuseLoop fuse ex c.wires a rest).1 zeros3 atol 0 = true
            · rw [if_pos hclose] at hsplit
              simp only [List.nil_append] at hsplit
              exact ih (fuseLoop fuse ex c.wires a rest).2
                (by simp only [List.length_cons]; omega) pre g post hsplit hgex hgsome hgfind
            · rw [if_neg hclose] at hsplit
              simp only [List.cons_append, List.nil_append] at hsplit
              cases pre with
              | nil =>
                injection hsplit with h1 h2
                constructor
                · rw [← h1]
                  rfl
                · rw [← h1]
                  have hcf : allclose (fuseLoop fuse ex c.wires a rest).1 zeros3 atol 0
                      = false := by simpa using hclose
                  exact hcf
              | cons p pre' =>
                injection hsplit with h1 h2
                exact ih (fuseLoop fuse ex c.wires a rest).2
                  (by simp only [List.length_cons]; omega) pre' g post h2 hgex hgsome hgfind

/-- On a fusible-adjacency-free list satisfying the output invariant, the
pass is the identity: every head is re-emitted verbatim. -/
theorem sqf_stable (fuse : Angles → Angles → Angles) (atol : ℚ)
    (ex : Option (List String)) : ∀ L : List Operation,
    (∀ pre g post, L = pre ++ g :: post → isExcluded ex g = false →
      g.rotAngles.isSome = true → find_next_gate g.wires post ≠ none →
      g = Rot (angOf g) g.wires ∧ allclose (angOf g) zeros3 atol 0 = false) →
    hasFusiblePair ex L = false →
    single_qubit_fusion fuse atol ex L = L := by
  intro L
  induction L with
  | nil =>
    intro _ _
    exact single_qubit_fusion_nil fuse atol ex
  | cons g tl ihtl =>
    intro hgood hnf
    have hgood_tl : ∀ pre x post, tl = pre ++ x :: post → isExcluded ex x = false →
        x.rotAngles.isSome = true → find_next_gate x.wires post ≠ none →
        x = Rot (angOf x) x.wires ∧ allclose (angOf x) zeros3 atol 0 = false := by
      intro pre x post hsplit hx1 hx2 hx3
      exact hgood (g :: pre) x post (by rw [hsplit]; rfl) hx1 hx2 hx3
    have hnf' : ((!isExcluded ex g && g.rotAngles.isSome &&
        (match find_next_gate g.wires tl with
         | none => false
         | some i =>
           decide (g.wires = (tl.getD i default).wires) &&
             !isExcluded ex (tl.getD i default) &&
             (tl.getD i default).rotAngles.isSome)) ||
        hasFusiblePair ex tl) = false := hnf
    have hnf1 := (Bool.or_eq_false_iff.mp hnf').1
    have hnf2 := (Bool.or_eq_false_iff.mp hnf').2
    by_cases hexc : isExcluded ex g = true
    · rw [single_qubit_fusion_excluded hexc, ihtl hgood_tl hnf2]
    · have hexc' : isExcluded ex g = false := by simpa using hexc
      cases ha : g.rotAngles with
      | none => rw [single_qubit_fusion_no_angles hexc' ha, ihtl hgood_tl hnf2]
      | some a =>
        cases hf : find_next_gate g.wires tl with
        | none => rw [single_qubit_fusion_no_next hexc' ha hf, ihtl hgood_tl hnf2]
        | some i =>
          rw [hf] at hnf1
          simp only [Bool.and_eq_false_iff] at hnf1
          have hinner : (decide (g.wires = (tl.getD i default).wires) = false ∨
              (!isExcluded ex (tl.getD i default)) = false) ∨
              (tl.getD i default).rotAngles.isSome = false := by
            rcases hnf1 with h | h
            · exfalso
              rcases h with h | h
              · simp [hexc'] at h
              · rw [ha] at h
                simp at h
            · exact h
          have hstop : fuseLoop fuse ex g.wires a tl = (a, tl) := by
            by_cases hw : g.wires = (tl.getD i default).wires
            · by_cases hx : isExcluded ex (tl.getD i default) = true
              · exact fuseLoop_of_excluded hf hw hx
              · have hx' : isExcluded ex (tl.getD i default) = false := by simpa using hx
                have hnone : (tl.getD i default).rotAngles = none := by
                  rcases hinner with (h | h) | h
                  · exact absurd hw (of_decide_eq_false h)
                  · exfalso
                    rw [hx'] at h
                    simp at h
                  · cases harot : (tl.getD i default).rotAngles with
                    | none => rfl
                    | some y =>
                      rw [harot] at h
                      simp at h
                exact fuseLoop_of_no_angles hf hw hx' hnone
            · exact fuseLoop_of_wires_ne hf hw
          have h1 : (fuseLoop fuse ex g.wires a tl).1 = a := by rw [hstop]
          have h2 : (fuseLoop fuse ex g.wires a tl).2 = tl := by rw [hstop]
          obtain ⟨hgrot, hgclose⟩ := hgood [] g tl rfl hexc' (by simp [ha]) (by simp [hf])
          have hag : angOf g = a := by simp [angOf, ha]
          rw [hag] at hgclose hgrot
          rw [single_qubit_fusion_fuse hexc' ha hf, h1, h2,
            if_neg (by simp [hgclose]), ihtl hgood_tl hnf2, ← hgrot]
          rfl

/-- C4: applying `single_qubit_fusion` to its own output yields no further
reduction in operation count, provided the first pass created no new
fusible adjacency — formalised as: the first pass's output contains no
fusible pair (no angle-capable non-excluded gate whose next
intersecting-wire gate is mergeable).  Under that proviso the second pass
is in fact the identity, so the operation counts agree. -/
theorem second_pass_no_further_reduction (fuse : Angles → Angles → Angles)
    (atol : ℚ) (ex : Option (List String)) (ops : List Operation)
    (h : hasFusiblePair ex (single_qubit_fusion fuse atol ex ops) = false) :
    (single_qubit_fusion fuse atol ex (single_qubit_fusion fuse atol ex ops)).length =
      (single_qubit_fusion fuse atol ex ops).length := by
  rw [sqf_stable fuse atol ex (single_qubit_fusion fuse atol ex ops)
    (sqf_goodOut fuse atol ex ops) h]

/-- Witness for C4 at a concrete input. -/
theorem second_pass_no_further_reduction_witness :
    (single_qubit_fusion (fun p _ => p) 0 none (single_qubit_fusion (fun p _ => p) 0 none
        [(⟨"Hadamard", [0], none⟩ : Operation)])).length =
      (single_qubit_fusion (fun p _ => p) 0 none
        [(⟨"Hadamard", [0], none⟩ : Operation)]).length := by
  have hs : single_qubit_fusion (fun p _ => p) 0 none
      [(⟨"Hadamard", [0], none⟩ : Operation)] = [⟨"Hadamard", [0], none⟩] := by
    rw [@single_qubit_fusion_no_angles (fun p _ => p) 0 none ⟨"Hadamard", [0], none⟩ []
      rfl rfl, single_qubit_fusion_nil]
  exact second_pass_no_further_reduction (fun p _ => p) 0 none _ (by rw [hs]; rfl)

end PennyLane
